import Mathlib

/-!
# rules_archive: the zip merge tool (src/zip/zip.go)

A shallow embedding of `zip.go` and the properties of its entry resolution,
deduplication, ordering and header rewriting.

Modelling conventions.

* A Go `string` is a sequence of bytes (`GoString`); `<` on strings is the
  byte-wise lexicographic order, `len` is the byte count and `s[a:b]` is a byte
  slice.
* The external collaborators (archive codec, filesystem walk, file open/stat)
  are the fields of a `World`: each field answers what the library call returns.
* A Go function that returns `(value, error)` returns a pair whose second
  component is an `Option GoError`; a function that can hit a runtime panic
  (nil dereference, slice bounds out of range) returns an `Outcome`.
* Every function also returns the list of external calls it performed, in order
  (`List Event`), so that statements about what was and was not touched can be
  made.
-/

namespace Zip

/-- One byte of a Go string. -/
abbrev Byte := Fin 256

/-- A Go `string`: an immutable sequence of bytes. -/
abbrev GoString := List Byte

/-- The bytes of an ASCII literal, used to write concrete inputs. -/
def str (s : String) : GoString := s.toList.map (fun c => Fin.ofNat c.toNat)

/-- The byte `=`, the separator of `strings.SplitN(path, "=", 2)`. -/
def eqByte : Byte := 61

/-- The byte `/`, the path separator placed by `filepath.Join`. -/
def slash : Byte := 47

/-- Go `error` values: those produced by the external collaborators and the
wrappers built with `fmt.Errorf` in `zip.go`. -/
inductive GoError where
  /-- An error returned by a library call (identified by a code). -/
  | ext (code : Nat)
  /-- The value `os.ErrInvalid`, returned by methods of a nil `*os.File`. -/
  | invalid
  /-- Wrapper `"Failed to traverse %v: %v"` (appendFiles). -/
  | traverse (filePath : GoString) (cause : GoError)
  /-- Wrapper `"Could not open output %v: %v"` (write). -/
  | openOutput (output : GoString) (cause : GoError)
  /-- Wrapper `"Could not copy %v in %v: %v"` (archiveEntry.Write). -/
  | copyArchive (path archivePath : GoString) (cause : GoError)
  /-- Wrapper `"Could not open file %v: %v"` (fileEntry.Write). -/
  | openFile (path : GoString) (cause : GoError)
  /-- Wrapper `"Could not copy file %v: %v"` (fileEntry.Write). -/
  | copyFile (path : GoString) (cause : GoError)
  deriving DecidableEq

/-- A Go `time.Time`, as seconds and nanoseconds since the Unix epoch. -/
structure Time where
  sec : Int
  nsec : Int
  deriving DecidableEq

/-- Go `time.Unix(sec, nsec)`: nanoseconds outside `[0, 1e9)` carry into the
seconds. -/
def Time.Unix (sec nsec : Int) : Time :=
  { sec := sec + nsec / 1000000000, nsec := nsec % 1000000000 }

/-- Go `zip.FileHeader` (package archive/zip): the metadata of one archive
entry. Integer fields hold the value of the unsigned machine integer. -/
structure FileHeader where
  Name : GoString
  Comment : GoString
  NonUTF8 : Bool
  CreatorVersion : Nat
  ReaderVersion : Nat
  Flags : Nat
  Method : Nat
  Modified : Time
  ModifiedTime : Nat
  ModifiedDate : Nat
  CRC32 : Nat
  CompressedSize : Nat
  UncompressedSize : Nat
  CompressedSize64 : Nat
  UncompressedSize64 : Nat
  Extra : List Byte
  ExternalAttrs : Nat
  deriving DecidableEq

/-- Compression method `zip.Store`. -/
def Store : Nat := 0

/-- Compression method `zip.Deflate`. -/
def Deflate : Nat := 8

/-- What reading a source to its end delivers: the bytes read, and the error
that stopped the read, if any. -/
abbrev Content := List Byte × Option GoError

/-- Go `*zip.File`: an entry of an opened archive. `FileHeader.Name` is its
path inside the archive; `Open` is the result of `file.Open()`. -/
structure ZipFile where
  FileHeader : FileHeader
  Open : Except GoError Content

/-- Go `os.FileInfo`, as delivered by `file.Stat()`. -/
structure FileInfo where
  Name : GoString
  Size : Nat
  Mode : Nat
  ModTime : Time
  IsDir : Bool
  deriving DecidableEq

/-- An opened `*os.File`: what `Stat` returns and what reading it delivers. -/
structure OsFile where
  Stat : Except GoError FileInfo
  Read : Content

/-- One call of the `filepath.Walk` callback: the visited path, whether it is a
directory, and the error the walk reports for it (`nil` when none). -/
structure WalkNode where
  filePath : GoString
  isDir : Bool
  err : Option GoError
  deriving DecidableEq

/-- The external collaborators, as seen by one run: what each library call
returns for each argument. The answers are fixed for the run (the output is not
one of the run's own sources). -/
structure World where
  /-- Call `zip.OpenReader(path)`: the archive directory, in container order. -/
  OpenReader : GoString → Except GoError (List ZipFile)
  /-- The nodes `filepath.Walk(path, fn)` visits, in order, as long as `fn`
  returns `nil`. -/
  Walk : GoString → List WalkNode
  /-- Call `os.Open(path)`. -/
  Open : GoString → Except GoError OsFile
  /-- Call `zip.FileInfoHeader(info)`. -/
  FileInfoHeader : FileInfo → Except GoError FileHeader
  /-- Call `os.Create(path)`: the error, if the file cannot be created. -/
  Create : GoString → Option GoError
  /-- Call `writer.CreateHeader(header)`: the error, if the header is refused. -/
  CreateHeader : FileHeader → Option GoError

/-- The external calls of a run that the properties talk about. -/
inductive Event where
  /-- Call `zip.OpenReader(path)`. -/
  | openReader (path : GoString)
  /-- Call `filepath.Walk(path, ...)`. -/
  | walk (path : GoString)
  /-- Call `os.Create(output)`: the destination is created or truncated. -/
  | create (output : GoString)
  /-- Call `os.Open(path)`. -/
  | openFile (path : GoString)
  /-- Call `writer.CreateHeader(header)` with this header. -/
  | createHeader (header : FileHeader)
  /-- Bytes `io.Copy` wrote to the destination writer. -/
  | copy (bytes : List Byte)
  /-- Deferred `writer.Close()`. -/
  | closeWriter
  /-- Deferred `outputFile.Close()`. -/
  | closeOutput
  deriving DecidableEq

/-- How a Go call ends: it returns a value, or the goroutine panics. -/
inductive Outcome (α : Type) where
  | ret (a : α)
  | panic
  deriving DecidableEq

/-- Go `type archiveEntry struct`. -/
structure archiveEntry where
  name : GoString
  archivePath : GoString
  path : GoString
  deriving DecidableEq

/-- Go `type fileEntry struct`. -/
structure fileEntry where
  name : GoString
  Path : GoString
  deriving DecidableEq

/-- Go `type entry interface`, implemented by `archiveEntry` and `fileEntry`. -/
inductive entry where
  | archive (e : archiveEntry)
  | file (e : fileEntry)
  deriving DecidableEq

/-- Method `Name()` of both entry variants. -/
def entry.Name : entry → GoString
  | .archive e => e.name
  | .file e => e.name

/-- The instant `time.Unix(1262329200, 0)` assigned to `header.Modified`. -/
def fixedModified : Time := Time.Unix 1262329200 0

/-- Go `strings.SplitN(s, "=", 2)`: the whole string when it has no `=`,
otherwise the text before the first `=` and all the text after it. -/
def SplitN : GoString → List GoString
  | [] => [[]]
  | c :: cs =>
    if c = eqByte then [[], cs]
    else
      match SplitN cs with
      | p :: q => (c :: p) :: q
      | [] => [[c]]

/-- Lines 60-67 of `createEntries`: the `(name, path)` of an archive token. -/
def archiveSpec (path : GoString) : GoString × GoString :=
  match SplitN path with
  | [_] => ([], path)
  | p0 :: p1 :: _ => (p0, p1)
  | [] => ([], path)

/-- Lines 76-83 of `createEntries`: the `(name, path)` of a file token. -/
def fileSpec (path : GoString) : GoString × GoString :=
  match SplitN path with
  | [p0] => (p0, path)
  | p0 :: p1 :: _ => (p0, p1)
  | [] => (path, path)

/-- Function `appendArchive`. -/
def appendArchive (w : World) (entries : List entry) (name path : GoString) :
    List Event × (List entry × Option GoError) :=
  match w.OpenReader path with
  | .error err => ([Event.openReader path], (entries, some err))
  | .ok files =>
    ([Event.openReader path],
      (entries ++ files.map (fun file => entry.archive
        { name := name ++ file.FileHeader.Name, archivePath := path,
          path := file.FileHeader.Name }), none))

/-- The callback `appendFiles` hands to `filepath.Walk` (lines 195-204), applied
to one visited node. The slice `filePath[len(path):len(filePath)]` panics when
`len(path) > len(filePath)`. -/
def walkFn (name path : GoString) (entries : List entry) (n : WalkNode) :
    Outcome (List entry × Option GoError) :=
  match n.err with
  | some err => .ret (entries, some (GoError.traverse n.filePath err))
  | none =>
    if n.isDir then .ret (entries, none)
    else if path.length ≤ n.filePath.length then
      .ret (entries ++ [entry.file
        { name := name ++ n.filePath.drop path.length, Path := n.filePath }], none)
    else .panic

/-- Go `filepath.Walk` driving the callback over the visited nodes: the walk
stops at the first node for which the callback returns an error, and returns
that error. -/
def walkLoop (name path : GoString) : List WalkNode → List entry →
    Outcome (List entry × Option GoError)
  | [], entries => .ret (entries, none)
  | n :: ns, entries =>
    match walkFn name path entries n with
    | .ret (entries1, none) => walkLoop name path ns entries1
    | .ret (entries1, some err) => .ret (entries1, some err)
    | .panic => .panic

/-- Function `appendFiles`. -/
def appendFiles (w : World) (entries : List entry) (name path : GoString) :
    List Event × Outcome (List entry × Option GoError) :=
  ([Event.walk path], walkLoop name path (w.Walk path) entries)

/-- First loop of `createEntries` (lines 59-73): the archive tokens. -/
def archiveLoop (w : World) : List GoString → List entry →
    List Event × (List entry × Option GoError)
  | [], entries => ([], (entries, none))
  | path :: rest, entries =>
    match appendArchive w entries (archiveSpec path).1 (archiveSpec path).2 with
    | (ev, (entries1, some err)) => (ev, (entries1, some err))
    | (ev, (entries1, none)) =>
      ((ev ++ (archiveLoop w rest entries1).1), (archiveLoop w rest entries1).2)

/-- Second loop of `createEntries` (lines 75-89): the file tokens. -/
def fileLoop (w : World) : List GoString → List entry →
    List Event × Outcome (List entry × Option GoError)
  | [], entries => ([], .ret (entries, none))
  | path :: rest, entries =>
    match appendFiles w entries (fileSpec path).1 (fileSpec path).2 with
    | (ev, .ret (entries1, some err)) => (ev, .ret (entries1, some err))
    | (ev, .panic) => (ev, .panic)
    | (ev, .ret (entries1, none)) =>
      ((ev ++ (fileLoop w rest entries1).1), (fileLoop w rest entries1).2)

/-- Both resolution loops of `createEntries` (lines 58-89): the accumulated
entry list, before deduplication. -/
def accumulate (w : World) (archives files : List GoString) :
    List Event × Outcome (List entry × Option GoError) :=
  match archiveLoop w archives [] with
  | (ev, (entries, some err)) => (ev, .ret (entries, some err))
  | (ev, (entries, none)) =>
    (ev ++ (fileLoop w files entries).1, (fileLoop w files entries).2)

/-- Deduplication loop of `createEntries` (lines 91-99). `names` holds the keys
of the Go map, `entries` the entries kept so far. -/
def dedupLoop : List entry → List GoString → List entry → List entry
  | [], _, entries => entries
  | e :: oldEntries, names, entries =>
    if e.Name ∈ names then dedupLoop oldEntries names entries
    else dedupLoop oldEntries (e.Name :: names) (entries ++ [e])

/-- Lines 91-100 of `createEntries`: deduplicate the accumulated list. -/
def dedup (oldEntries : List entry) : List entry := dedupLoop oldEntries [] []

/-- Insert `x` into a list ordered by `less`, before the first element it is
less than. -/
def sortInsert {α : Type} (less : α → α → Bool) (x : α) : List α → List α
  | [] => [x]
  | y :: ys => if less x y then x :: y :: ys else y :: sortInsert less x ys

/-- Go `sort.Slice(s, less)`, as an insertion sort. On the deduplicated list the
names are pairwise distinct, so every correct sort returns the same list
(see `sorted_perm_unique`). -/
def sortSlice {α : Type} (less : α → α → Bool) (s : List α) : List α :=
  s.foldr (sortInsert less) []

/-- The `less` function handed to `sort.Slice` (line 103). -/
def lessName (a b : entry) : Bool := decide (a.Name < b.Name)

/-- Function `createEntries`. -/
def createEntries (w : World) (archives files : List GoString) :
    List Event × Outcome (List entry × Option GoError) :=
  match accumulate w archives files with
  | (ev, .ret (entries, some err)) => (ev, .ret (entries, some err))
  | (ev, .panic) => (ev, .panic)
  | (ev, .ret (oldEntries, none)) => (ev, .ret (sortSlice lessName (dedup oldEntries), none))

/-- Method `archiveEntry.Write`. When `zip.OpenReader` fails, `reader` is nil and
`reader.File` (line 160) dereferences it; when no file matches, `sourceFile` is
nil and `sourceFile.FileHeader` (line 170) dereferences it: both panic. -/
def archiveEntry.Write (w : World) (entry : archiveEntry) (method : Nat) :
    List Event × Outcome (Option GoError) :=
  match w.OpenReader entry.archivePath with
  | .error _ => ([Event.openReader entry.archivePath], .panic)
  | .ok files =>
    match files.find? (fun file => file.FileHeader.Name = entry.path) with
    | none => ([Event.openReader entry.archivePath], .panic)
    | some sourceFile =>
      let header : FileHeader :=
        { sourceFile.FileHeader with
          Name := entry.name, Method := method, Modified := Time.Unix 1262329200 0 }
      match w.CreateHeader header with
      | some err =>
        ([Event.openReader entry.archivePath, Event.createHeader header], .ret (some err))
      | none =>
        match sourceFile.Open with
        | .error err =>
          ([Event.openReader entry.archivePath, Event.createHeader header], .ret (some err))
        | .ok (bytes, none) =>
          ([Event.openReader entry.archivePath, Event.createHeader header, Event.copy bytes],
            .ret none)
        | .ok (bytes, some err) =>
          ([Event.openReader entry.archivePath, Event.createHeader header, Event.copy bytes],
            .ret (some (GoError.copyArchive entry.path entry.archivePath err)))

/-- Method `fileEntry.Write`. When `os.Open` fails, `file` is nil and
`file.Stat()` returns `os.ErrInvalid`. -/
def fileEntry.Write (w : World) (entry : fileEntry) (method : Nat) :
    List Event × Outcome (Option GoError) :=
  match w.Open entry.Path with
  | .error _ =>
    ([Event.openFile entry.Path], .ret (some (GoError.openFile entry.Path GoError.invalid)))
  | .ok file =>
    match file.Stat with
    | .error err => ([Event.openFile entry.Path], .ret (some (GoError.openFile entry.Path err)))
    | .ok info =>
      match w.FileInfoHeader info with
      | .error err => ([Event.openFile entry.Path], .ret (some err))
      | .ok header0 =>
        let header : FileHeader :=
          { header0 with
            Name := entry.name, Method := method, Modified := Time.Unix 1262329200 0 }
        match w.CreateHeader header with
        | some err => ([Event.openFile entry.Path, Event.createHeader header], .ret (some err))
        | none =>
          match file.Read with
          | (bytes, none) =>
            ([Event.openFile entry.Path, Event.createHeader header, Event.copy bytes], .ret none)
          | (bytes, some err) =>
            ([Event.openFile entry.Path, Event.createHeader header, Event.copy bytes],
              .ret (some (GoError.copyFile entry.Path err)))

/-- Interface method `entry.Write`, dispatched on the variant. -/
def entry.Write (w : World) (method : Nat) : entry → List Event × Outcome (Option GoError)
  | .archive e => archiveEntry.Write w e method
  | .file e => fileEntry.Write w e method

/-- The loop of `write` (lines 124-129): stop at the first entry whose `Write`
returns an error. -/
def writeLoop (w : World) (method : Nat) : List entry → List Event × Outcome (Option GoError)
  | [] => ([], .ret none)
  | e :: rest =>
    match entry.Write w method e with
    | (ev, .ret none) => (ev ++ (writeLoop w method rest).1, (writeLoop w method rest).2)
    | (ev, .ret (some err)) => (ev, .ret (some err))
    | (ev, .panic) => (ev, .panic)

/-- Function `write`. The deferred `writer.Close()` and `outputFile.Close()` run
on every exit once the destination is open. -/
def write (w : World) (output : GoString) (entries : List entry) (method : Nat) :
    List Event × Outcome (Option GoError) :=
  if output = str "-" then
    ((writeLoop w method entries).1 ++ [Event.closeWriter, Event.closeOutput],
      (writeLoop w method entries).2)
  else
    match w.Create output with
    | some err => ([Event.create output], .ret (some (GoError.openOutput output err)))
    | none =>
      (Event.create output :: (writeLoop w method entries).1 ++
        [Event.closeWriter, Event.closeOutput], (writeLoop w method entries).2)

/-- Function `run`. -/
def run (w : World) (archives files : List GoString) (output : GoString) (compress : Bool) :
    List Event × Outcome (Option GoError) :=
  let method := if compress then Deflate else Store
  match createEntries w archives files with
  | (ev, .ret (_, some err)) => (ev, .ret (some err))
  | (ev, .panic) => (ev, .panic)
  | (ev, .ret (entries, none)) =>
    (ev ++ (write w output entries method).1, (write w output entries method).2)

/-! ## Vocabulary of the statements -/

/-- The entries one archive token contributes to the accumulator. -/
def archiveYield (w : World) (tok : GoString) : List entry :=
  (appendArchive w [] (archiveSpec tok).1 (archiveSpec tok).2).2.1

/-- The archive token resolves: `appendArchive` returns no error. -/
def archiveOk (w : World) (tok : GoString) : Prop :=
  (appendArchive w [] (archiveSpec tok).1 (archiveSpec tok).2).2.2 = none

/-- The entries one file token contributes to the accumulator. -/
def fileYield (w : World) (tok : GoString) : List entry :=
  match (appendFiles w [] (fileSpec tok).1 (fileSpec tok).2).2 with
  | .ret (entries, _) => entries
  | .panic => []

/-- The file token resolves: `appendFiles` returns, without an error. -/
def fileOk (w : World) (tok : GoString) : Prop :=
  ∃ entries, (appendFiles w [] (fileSpec tok).1 (fileSpec tok).2).2 = .ret (entries, none)

/-- Days from 1970-01-01 to the date `y-m-d` of the proleptic Gregorian
calendar. -/
def daysFromCivil (y m d : Int) : Int :=
  let y1 := if m ≤ 2 then y - 1 else y
  let era := y1 / 400
  let yoe := y1 - era * 400
  let mp := if m ≤ 2 then m + 9 else m - 3
  let doy := (153 * mp + 2) / 5 + d - 1
  let doe := yoe * 365 + yoe / 4 - yoe / 100 + doy
  era * 146097 + doe - 719468

/-- Unix seconds of the UTC instant `y-m-dThh:mm:ssZ`. -/
def utcToUnix (y m d hh mm ss : Int) : Int :=
  daysFromCivil y m d * 86400 + hh * 3600 + mm * 60 + ss

/-- The header fields that `Write` does not assign are those of the base
header: every field of `zip.FileHeader` except `Name`, `Method`, `Modified`. -/
def preservedFields (h base : FileHeader) : Prop :=
  h.Comment = base.Comment ∧ h.NonUTF8 = base.NonUTF8 ∧
  h.CreatorVersion = base.CreatorVersion ∧ h.ReaderVersion = base.ReaderVersion ∧
  h.Flags = base.Flags ∧ h.ModifiedTime = base.ModifiedTime ∧
  h.ModifiedDate = base.ModifiedDate ∧ h.CRC32 = base.CRC32 ∧
  h.CompressedSize = base.CompressedSize ∧ h.UncompressedSize = base.UncompressedSize ∧
  h.CompressedSize64 = base.CompressedSize64 ∧
  h.UncompressedSize64 = base.UncompressedSize64 ∧
  h.Extra = base.Extra ∧ h.ExternalAttrs = base.ExternalAttrs

/-- The resolver calls of `createEntries` for the given tokens, in order: one
`zip.OpenReader` per archive token, then one `filepath.Walk` per file token. -/
def resolutionTrace (archives files : List GoString) : List Event :=
  archives.map (fun t => Event.openReader (archiveSpec t).2) ++
    files.map (fun t => Event.walk (fileSpec t).2)

/-- The callback accepts the node: the walk reports no error for it and, for a
regular file, the slice `filePath[len(path):]` is in bounds. -/
def nodeOk (path : GoString) (n : WalkNode) : Prop :=
  n.err = none ∧ (n.isDir = false → path.length ≤ n.filePath.length)

/-- The entry the callback of `appendFiles` appends for a regular file. -/
def nodeEntry (name path : GoString) (n : WalkNode) : entry :=
  entry.file { name := name ++ n.filePath.drop path.length, Path := n.filePath }

/-! ## Concrete worlds -/

/-- A header with every field zero or empty except the name and the external
attributes. -/
def plainHeader (name : GoString) (attrs : Nat) : FileHeader :=
  { Name := name, Comment := [], NonUTF8 := false, CreatorVersion := 0, ReaderVersion := 0,
    Flags := 0, Method := 0, Modified := Time.Unix 1700000000 0, ModifiedTime := 0,
    ModifiedDate := 0, CRC32 := 0, CompressedSize := 0, UncompressedSize := 0,
    CompressedSize64 := 0, UncompressedSize64 := 0, Extra := [], ExternalAttrs := attrs }

/-- An archive member with the given internal path, attributes and bytes. -/
def plainFile (name : GoString) (attrs : Nat) (bytes : List Byte) : ZipFile :=
  { FileHeader := plainHeader name attrs, Open := .ok (bytes, none) }

/-- A readable regular file with the given name, mode and bytes. -/
def plainOsFile (name : GoString) (mode : Nat) (bytes : List Byte) : OsFile :=
  { Stat := .ok { Name := name, Size := bytes.length, Mode := mode,
                  ModTime := Time.Unix 1600000000 0, IsDir := false },
    Read := (bytes, none) }

/-- A small world: archives `A.zip` (members `x`, `y`) and `B.zip` (members `x`,
`z`); regular files `f1.txt`, `f2.txt` and `x`; a directory `dir` holding
`a.txt` and `sub/b.txt`. Every other path is missing. -/
def demoWorld : World :=
  { OpenReader := fun p =>
      if p = str "A.zip" then .ok [plainFile (str "x") 420 [1], plainFile (str "y") 420 [2]]
      else if p = str "B.zip" then .ok [plainFile (str "x") 493 [3], plainFile (str "z") 420 [4]]
      else .error (GoError.ext 1)
    Walk := fun p =>
      if p = str "dir" then
        [⟨str "dir", true, none⟩, ⟨str "dir/a.txt", false, none⟩,
         ⟨str "dir/sub", true, none⟩, ⟨str "dir/sub/b.txt", false, none⟩]
      else if p = str "f1.txt" ∨ p = str "f2.txt" ∨ p = str "x" then [⟨p, false, none⟩]
      else [⟨p, false, some (GoError.ext 2)⟩]
    Open := fun p =>
      if p = str "f1.txt" then .ok (plainOsFile (str "f1.txt") 420 [5])
      else if p = str "f2.txt" then .ok (plainOsFile (str "f2.txt") 493 [6])
      else if p = str "x" then .ok (plainOsFile (str "x") 420 [7])
      else .error (GoError.ext 2)
    FileInfoHeader := fun info =>
      .ok { plainHeader info.Name (info.Mode * 65536) with
            Modified := info.ModTime, UncompressedSize64 := info.Size }
    Create := fun _ => none
    CreateHeader := fun _ => none }

/-- The demo world with one more directory, given as the unclean root `././d`:
it holds the regular file `a`, which `filepath.Walk` visits as `d/a`
(`filepath.Join` cleans the path), three bytes against the five of the root. -/
def sliceWorld : World :=
  { demoWorld with
    Walk := fun p =>
      if p = str "././d" then [⟨str "././d", true, none⟩, ⟨str "d/a", false, none⟩]
      else demoWorld.Walk p }

/-! ## Lemmas: the order on strings -/

/-- The order `<` on `GoString` is the byte-wise lexicographic order: the empty
string is below every non-empty one, nothing is below the empty string, and two
non-empty strings compare by their first bytes, then by their tails. -/
theorem goString_lt_iff (a b : Byte) (as bs : GoString) :
    (([] : GoString) < b :: bs) ∧ (¬ as < ([] : GoString)) ∧
    ((a :: as : GoString) < b :: bs ↔ a < b ∨ (a = b ∧ as < bs)) := by
  refine ⟨List.Lex.nil, ?_, ?_, ?_⟩
  · intro h
    cases h
  · intro h
    cases h with
    | cons h => exact Or.inr ⟨rfl, h⟩
    | rel h => exact Or.inl h
  · rintro (h | ⟨rfl, h⟩)
    · exact List.Lex.rel h
    · exact List.Lex.cons h

/-! ## Lemmas: token splitting -/

theorem SplitN_no_sep (t : GoString) (h : eqByte ∉ t) : SplitN t = [t] := by
  induction t with
  | nil => rfl
  | cons c cs ih =>
    have hc : c ≠ eqByte := fun hc => h (by simp [hc])
    have hcs : eqByte ∉ cs := fun hm => h (List.mem_cons_of_mem _ hm)
    simp [SplitN, hc, ih hcs]

theorem SplitN_sep (a b : GoString) (h : eqByte ∉ a) :
    SplitN (a ++ eqByte :: b) = [a, b] := by
  induction a with
  | nil => simp [SplitN]
  | cons c cs ih =>
    have hc : c ≠ eqByte := fun hc => h (by simp [hc])
    have hcs : eqByte ∉ cs := fun hm => h (List.mem_cons_of_mem _ hm)
    simp [SplitN, hc, ih hcs]

/-! ## Lemmas: deduplication -/

theorem dedupLoop_acc (l : List entry) (names : List GoString) (entries : List entry) :
    dedupLoop l names entries = entries ++ dedupLoop l names [] := by
  induction l generalizing names entries with
  | nil => simp [dedupLoop]
  | cons e l ih =>
    simp only [dedupLoop]
    split
    · exact ih names entries
    · rw [ih (e.Name :: names) (entries ++ [e]), ih (e.Name :: names) ([] ++ [e])]
      simp

theorem dedupLoop_cons (e : entry) (l : List entry) (names : List GoString) :
    dedupLoop (e :: l) names [] =
      if e.Name ∈ names then dedupLoop l names [] else e :: dedupLoop l (e.Name :: names) [] := by
  simp only [dedupLoop]
  split
  · rfl
  · rw [dedupLoop_acc]; simp

theorem mem_dedupLoop (l : List entry) (names : List GoString) (x : entry) :
    x ∈ dedupLoop l names [] ↔
      x.Name ∉ names ∧ l.find? (fun e => e.Name = x.Name) = some x := by
  induction l generalizing names with
  | nil => simp [dedupLoop]
  | cons e l ih =>
    rw [dedupLoop_cons]
    by_cases hm : e.Name ∈ names
    · rw [if_pos hm, ih]
      constructor
      · rintro ⟨hx, hf⟩
        have hne : e.Name ≠ x.Name := fun he => hx (he ▸ hm)
        exact ⟨hx, by simp [List.find?_cons, hne, hf]⟩
      · rintro ⟨hx, hf⟩
        have hne : e.Name ≠ x.Name := fun he => hx (he ▸ hm)
        refine ⟨hx, ?_⟩
        simpa [List.find?_cons, hne] using hf
    · rw [if_neg hm, List.mem_cons, ih]
      by_cases he : e.Name = x.Name
      · constructor
        · rintro (rfl | ⟨hx, _⟩)
          · exact ⟨hm, by simp [List.find?_cons]⟩
          · exact absurd (by simp [he]) hx
        · rintro ⟨_, hf⟩
          left
          simpa [List.find?_cons, he] using hf.symm
      · constructor
        · rintro (rfl | ⟨hx, hf⟩)
          · exact absurd rfl he
          · refine ⟨fun h => hx (List.mem_cons_of_mem _ h), ?_⟩
            simp [List.find?_cons, he, hf]
        · rintro ⟨hx, hf⟩
          right
          refine ⟨?_, by simpa [List.find?_cons, he] using hf⟩
          simp only [List.mem_cons, not_or]
          exact ⟨fun h => he h.symm, hx⟩

theorem mem_dedup (l : List entry) (x : entry) :
    x ∈ dedup l ↔ l.find? (fun e => e.Name = x.Name) = some x := by
  simp [dedup, mem_dedupLoop]

theorem dedupLoop_pairwise (l : List entry) (names : List GoString) :
    (dedupLoop l names []).Pairwise (fun a b => a.Name ≠ b.Name) := by
  induction l generalizing names with
  | nil => simp [dedupLoop]
  | cons e l ih =>
    rw [dedupLoop_cons]
    split
    · exact ih names
    · refine List.pairwise_cons.2 ⟨?_, ih _⟩
      intro y hy
      have := ((mem_dedupLoop l (e.Name :: names) y).1 hy).1
      simp only [List.mem_cons, not_or] at this
      exact fun h => this.1 h.symm

theorem dedup_pairwise (l : List entry) :
    (dedup l).Pairwise (fun a b => a.Name ≠ b.Name) := dedupLoop_pairwise l []

theorem find_of_mem_names (l : List entry) (n : GoString) (h : n ∈ l.map entry.Name) :
    ∃ e, l.find? (fun e => e.Name = n) = some e := by
  cases hf : l.find? (fun e => e.Name = n) with
  | some e => exact ⟨e, rfl⟩
  | none =>
    rw [List.find?_eq_none] at hf
    obtain ⟨e, he, rfl⟩ := List.mem_map.1 h
    exact absurd (by simp) (hf e he)

theorem find_name (l : List entry) (n : GoString) (e : entry)
    (h : l.find? (fun e => e.Name = n) = some e) : e.Name = n := by
  simpa using List.find?_some h

/-- In a list with pairwise distinct names, the entries of one name are the
single entry that has it. -/
theorem filter_name_eq_singleton (l : List entry) (e : entry)
    (hp : l.Pairwise (fun a b => a.Name ≠ b.Name)) (he : e ∈ l) :
    l.filter (fun x => x.Name = e.Name) = [e] := by
  induction l with
  | nil => cases he
  | cons y l ih =>
    obtain ⟨hy, hl⟩ := List.pairwise_cons.1 hp
    rcases List.mem_cons.1 he with rfl | hmem
    · have : l.filter (fun x => decide (x.Name = e.Name)) = [] := by
        rw [List.filter_eq_nil_iff]
        intro a ha
        simpa using fun h => hy a ha h.symm
      simp [List.filter_cons, this]
    · have hne : y.Name ≠ e.Name := hy e hmem
      simp [List.filter_cons, hne, ih hl hmem]

/-! ## Lemmas: sorting -/

theorem sortInsert_perm {α : Type} (less : α → α → Bool) (x : α) (l : List α) :
    (sortInsert less x l).Perm (x :: l) := by
  induction l with
  | nil => simp [sortInsert]
  | cons y ys ih =>
    simp only [sortInsert]
    split
    · exact List.Perm.refl _
    · exact (List.Perm.cons y ih).trans (List.Perm.swap x y ys)

theorem sortSlice_perm {α : Type} (less : α → α → Bool) (l : List α) :
    (sortSlice less l).Perm l := by
  induction l with
  | nil => exact List.Perm.refl _
  | cons x l ih =>
    exact (sortInsert_perm less x (sortSlice less l)).trans (List.Perm.cons x ih)

theorem sortInsert_sorted (x : entry) (s : List entry)
    (hs : s.Pairwise (fun a b => a.Name < b.Name)) (hx : ∀ y ∈ s, y.Name ≠ x.Name) :
    (sortInsert lessName x s).Pairwise (fun a b => a.Name < b.Name) := by
  induction s with
  | nil => simp [sortInsert]
  | cons y ys ih =>
    obtain ⟨hy, hys⟩ := List.pairwise_cons.1 hs
    simp only [sortInsert, lessName]
    by_cases hlt : x.Name < y.Name
    · simp only [hlt, decide_True, if_true]
      refine List.pairwise_cons.2 ⟨?_, hs⟩
      intro z hz
      rcases List.mem_cons.1 hz with rfl | hz
      · exact hlt
      · exact lt_trans hlt (hy z hz)
    · simp only [hlt, decide_False, Bool.false_eq_true, if_false]
      have hyx : y.Name < x.Name :=
        lt_of_le_of_ne (not_lt.1 hlt) (hx y (List.mem_cons_self _ _))
      refine List.pairwise_cons.2 ⟨?_, ih hys (fun z hz => hx z (List.mem_cons_of_mem _ hz))⟩
      intro z hz
      rcases List.mem_cons.1 ((sortInsert_perm lessName x ys).mem_iff.1 hz) with rfl | hz
      · exact hyx
      · exact hy z hz

theorem sortSlice_sorted (l : List entry) (hl : l.Pairwise (fun a b => a.Name ≠ b.Name)) :
    (sortSlice lessName l).Pairwise (fun a b => a.Name < b.Name) := by
  induction l with
  | nil => simp [sortSlice]
  | cons x l ih =>
    obtain ⟨hx, hl1⟩ := List.pairwise_cons.1 hl
    refine sortInsert_sorted x (sortSlice lessName l) (ih hl1) ?_
    intro y hy
    exact fun h => hx y ((sortSlice_perm lessName l).mem_iff.1 hy) h.symm

/-- A list has at most one arrangement in strictly ascending order of name:
whatever algorithm `sort.Slice` runs, on pairwise distinct names it returns the
list `sortSlice` returns. -/
theorem sorted_perm_unique (l1 l2 : List entry) (hp : l1.Perm l2)
    (h1 : l1.Pairwise (fun a b => a.Name < b.Name))
    (h2 : l2.Pairwise (fun a b => a.Name < b.Name)) : l1 = l2 := by
  haveI : IsAntisymm entry (fun a b => a.Name < b.Name) :=
    ⟨fun a b hab hba => absurd hab (lt_asymm hba)⟩
  exact List.eq_of_perm_of_sorted hp h1 h2

/-! ## Lemmas: resolution of the source tokens -/

theorem appendArchive_eq (w : World) (entries : List entry) (name path : GoString) :
    appendArchive w entries name path =
      ([Event.openReader path],
        (entries ++ (appendArchive w [] name path).2.1, (appendArchive w [] name path).2.2)) := by
  unfold appendArchive
  cases w.OpenReader path <;> simp

theorem archiveLoop_ok (w : World) (archives : List GoString) (entries : List entry)
    (h : ∀ t ∈ archives, archiveOk w t) :
    archiveLoop w archives entries =
      (archives.map (fun t => Event.openReader (archiveSpec t).2),
        (entries ++ archives.flatMap (archiveYield w), none)) := by
  induction archives generalizing entries with
  | nil => simp [archiveLoop]
  | cons tok rest ih =>
    have htok : archiveOk w tok := h tok (List.mem_cons_self _ _)
    have hrest : ∀ t ∈ rest, archiveOk w t := fun t ht => h t (List.mem_cons_of_mem _ ht)
    unfold archiveOk at htok
    rw [archiveLoop, appendArchive_eq, htok]
    simp only [ih _ hrest]
    simp [archiveYield, List.flatMap_cons]

theorem archiveLoop_fail (w : World) (pre : List GoString) (tok : GoString)
    (post : List GoString) (entries : List entry) (err : GoError)
    (h : ∀ t ∈ pre, archiveOk w t) (hf : w.OpenReader (archiveSpec tok).2 = .error err) :
    archiveLoop w (pre ++ tok :: post) entries =
      ((pre ++ [tok]).map (fun t => Event.openReader (archiveSpec t).2),
        (entries ++ pre.flatMap (archiveYield w), some err)) := by
  induction pre generalizing entries with
  | nil => simp [archiveLoop, appendArchive, hf]
  | cons t rest ih =>
    have ht : archiveOk w t := h t (List.mem_cons_self _ _)
    have hrest : ∀ t ∈ rest, archiveOk w t := fun t ht => h t (List.mem_cons_of_mem _ ht)
    unfold archiveOk at ht
    rw [List.cons_append, archiveLoop, appendArchive_eq, ht]
    simp only [ih _ hrest]
    simp [archiveYield, List.flatMap_cons]

theorem archiveLoop_ok_inv (w : World) (archives : List GoString) (entries : List entry)
    (h : (archiveLoop w archives entries).2.2 = none) : ∀ t ∈ archives, archiveOk w t := by
  induction archives generalizing entries with
  | nil => simp
  | cons tok rest ih =>
    rw [archiveLoop, appendArchive_eq] at h
    cases hx : (appendArchive w [] (archiveSpec tok).1 (archiveSpec tok).2).2.2 with
    | some err => rw [hx] at h; simp at h
    | none =>
      rw [hx] at h
      simp only at h
      intro t ht
      rcases List.mem_cons.1 ht with rfl | ht
      · exact hx
      · exact ih _ h t ht

theorem walkLoop_eq (name path : GoString) (nodes : List WalkNode) (entries : List entry) :
    walkLoop name path nodes entries =
      match walkLoop name path nodes [] with
      | .ret (es, e) => .ret (entries ++ es, e)
      | .panic => .panic := by
  induction nodes generalizing entries with
  | nil => simp [walkLoop]
  | cons n ns ih =>
    simp only [walkLoop, walkFn]
    cases hn : n.err with
    | some err => simp
    | none =>
      by_cases hd : n.isDir = true
      · simp only [hd, if_true]
        rw [ih entries]
      · simp only [hd, Bool.false_eq_true, if_false]
        by_cases hl : path.length ≤ n.filePath.length
        · simp only [hl, if_true, List.nil_append]
          rw [ih (entries ++ _), ih [_]]
          cases walkLoop name path ns [] with
          | panic => rfl
          | ret a => simp
        · simp [hl]

theorem appendFiles_eq (w : World) (entries : List entry) (name path : GoString) :
    appendFiles w entries name path =
      ([Event.walk path],
        match (appendFiles w [] name path).2 with
        | .ret (es, e) => .ret (entries ++ es, e)
        | .panic => .panic) := by
  simp only [appendFiles]
  rw [walkLoop_eq]

theorem fileLoop_ok (w : World) (files : List GoString) (entries : List entry)
    (h : ∀ t ∈ files, fileOk w t) :
    fileLoop w files entries =
      (files.map (fun t => Event.walk (fileSpec t).2),
        .ret (entries ++ files.flatMap (fileYield w), none)) := by
  induction files generalizing entries with
  | nil => simp [fileLoop]
  | cons tok rest ih =>
    obtain ⟨es, htok⟩ := h tok (List.mem_cons_self _ _)
    have hrest : ∀ t ∈ rest, fileOk w t := fun t ht => h t (List.mem_cons_of_mem _ ht)
    rw [fileLoop, appendFiles_eq, htok]
    simp only [ih _ hrest]
    simp [fileYield, htok, List.flatMap_cons]

theorem fileLoop_fail (w : World) (pre : List GoString) (tok : GoString)
    (post : List GoString) (entries es : List entry) (err : GoError)
    (h : ∀ t ∈ pre, fileOk w t)
    (hf : (appendFiles w [] (fileSpec tok).1 (fileSpec tok).2).2 = .ret (es, some err)) :
    fileLoop w (pre ++ tok :: post) entries =
      ((pre ++ [tok]).map (fun t => Event.walk (fileSpec t).2),
        .ret (entries ++ pre.flatMap (fileYield w) ++ es, some err)) := by
  induction pre generalizing entries with
  | nil =>
    rw [List.nil_append, fileLoop, appendFiles_eq, hf]
    simp
  | cons t rest ih =>
    obtain ⟨es1, ht⟩ := h t (List.mem_cons_self _ _)
    have hrest : ∀ t ∈ rest, fileOk w t := fun t ht => h t (List.mem_cons_of_mem _ ht)
    rw [List.cons_append, fileLoop, appendFiles_eq, ht]
    simp only [ih _ hrest]
    simp [fileYield, ht, List.flatMap_cons]

theorem fileLoop_ok_inv (w : World) (files : List GoString) (entries acc : List entry)
    (h : (fileLoop w files entries).2 = .ret (acc, none)) : ∀ t ∈ files, fileOk w t := by
  induction files generalizing entries with
  | nil => simp
  | cons tok rest ih =>
    rw [fileLoop, appendFiles_eq] at h
    cases hx : (appendFiles w [] (fileSpec tok).1 (fileSpec tok).2).2 with
    | panic => rw [hx] at h; simp at h
    | ret a =>
      obtain ⟨es, e⟩ := a
      cases e with
      | some err => rw [hx] at h; simp at h
      | none =>
        rw [hx] at h
        simp only at h
        intro t ht
        rcases List.mem_cons.1 ht with rfl | ht
        · exact ⟨es, hx⟩
        · exact ih _ h t ht

/-- When every token resolves, the accumulator is the archive yields in command
order followed by the file yields in command order. -/
theorem accumulate_ok (w : World) (archives files : List GoString)
    (ha : ∀ t ∈ archives, archiveOk w t) (hf : ∀ t ∈ files, fileOk w t) :
    accumulate w archives files =
      (archives.map (fun t => Event.openReader (archiveSpec t).2) ++
          files.map (fun t => Event.walk (fileSpec t).2),
        .ret (archives.flatMap (archiveYield w) ++ files.flatMap (fileYield w), none)) := by
  simp [accumulate, archiveLoop_ok w archives [] ha, fileLoop_ok w files _ hf]

theorem accumulate_ok_inv (w : World) (archives files : List GoString) (acc : List entry)
    (h : (accumulate w archives files).2 = .ret (acc, none)) :
    (∀ t ∈ archives, archiveOk w t) ∧ (∀ t ∈ files, fileOk w t) := by
  unfold accumulate at h
  cases hx : (archiveLoop w archives []).2.2 with
  | some err =>
    have : archiveLoop w archives [] =
        ((archiveLoop w archives []).1, ((archiveLoop w archives []).2.1, some err)) := by
      rw [← hx]
    rw [this] at h
    simp at h
  | none =>
    have : archiveLoop w archives [] =
        ((archiveLoop w archives []).1, ((archiveLoop w archives []).2.1, none)) := by
      rw [← hx]
    rw [this] at h
    simp only at h
    exact ⟨archiveLoop_ok_inv w archives [] hx, fileLoop_ok_inv w files _ acc h⟩

/-- Function `createEntries` on a successful resolution: the sorted,
deduplicated accumulator. -/
theorem createEntries_of_accumulate (w : World) (archives files : List GoString)
    (ev : List Event) (acc : List entry)
    (h : accumulate w archives files = (ev, .ret (acc, none))) :
    createEntries w archives files = (ev, .ret (sortSlice lessName (dedup acc), none)) := by
  simp [createEntries, h]

theorem accumulate_of_createEntries (w : World) (archives files : List GoString)
    (ev : List Event) (out : List entry)
    (h : createEntries w archives files = (ev, .ret (out, none))) :
    ∃ acc, accumulate w archives files = (ev, .ret (acc, none)) ∧
      out = sortSlice lessName (dedup acc) := by
  unfold createEntries at h
  split at h
  · simp at h
  · simp at h
  · rename_i ev1 old heq
    simp only [Prod.mk.injEq, Outcome.ret.injEq, and_true] at h
    exact ⟨old, by rw [heq, h.1], h.2.symm⟩

/-! ## Properties of `createEntries` -/

theorem mem_names_sort_dedup (acc : List entry) (n : GoString) :
    n ∈ (sortSlice lessName (dedup acc)).map entry.Name ↔ n ∈ acc.map entry.Name := by
  constructor
  · intro h
    obtain ⟨e, he, rfl⟩ := List.mem_map.1 h
    have hd : e ∈ dedup acc := (sortSlice_perm lessName _).mem_iff.1 he
    exact List.mem_map_of_mem _ (List.mem_of_find?_eq_some ((mem_dedup acc e).1 hd))
  · intro h
    obtain ⟨e, he⟩ := find_of_mem_names acc n h
    have hn : e.Name = n := find_name acc n e he
    subst hn
    exact List.mem_map_of_mem _
      ((sortSlice_perm lessName _).mem_iff.2 ((mem_dedup acc e).2 he))

theorem filter_sort_dedup (acc : List entry) (n : GoString) (e : entry)
    (he : acc.find? (fun e => e.Name = n) = some e) :
    (sortSlice lessName (dedup acc)).filter (fun x => x.Name = n) = [e] := by
  have hn : e.Name = n := find_name acc n e he
  subst hn
  have hd : e ∈ dedup acc := (mem_dedup acc e).2 he
  have h1 := filter_name_eq_singleton (dedup acc) e (dedup_pairwise acc) hd
  have h2 := (sortSlice_perm lessName (dedup acc)).filter (fun x => decide (x.Name = e.Name))
  rw [h1] at h2
  exact List.perm_singleton.1 h2

/-- C1. Deduplication in `createEntries` is first-writer-wins: when every source
resolves and the accumulator is `acc`, the returned list has, for every name
occurring in `acc`, exactly one entry of that name, namely the earliest entry of
that name in `acc`; it has no entry whose name does not occur in `acc`; and no
two returned entries share a name. -/
theorem createEntries_first_writer_wins (w : World) (archives files : List GoString)
    (ev : List Event) (acc : List entry)
    (h : accumulate w archives files = (ev, .ret (acc, none))) :
    ∃ out, createEntries w archives files = (ev, .ret (out, none)) ∧
      (∀ n ∈ acc.map entry.Name, ∃ e, acc.find? (fun e => e.Name = n) = some e ∧
        out.filter (fun x => x.Name = n) = [e]) ∧
      (∀ e ∈ out, e.Name ∈ acc.map entry.Name) ∧
      (out.map entry.Name).Nodup := by
  refine ⟨_, createEntries_of_accumulate w archives files ev acc h, ?_, ?_, ?_⟩
  · intro n hn
    obtain ⟨e, he⟩ := find_of_mem_names acc n hn
    exact ⟨e, he, filter_sort_dedup acc n e he⟩
  · intro e he
    exact (mem_names_sort_dedup acc e.Name).1 (List.mem_map_of_mem _ he)
  · have hp : (sortSlice lessName (dedup acc)).Pairwise (fun a b => a.Name ≠ b.Name) :=
      (sortSlice_sorted (dedup acc) (dedup_pairwise acc)).imp (fun h => ne_of_lt h)
    exact List.pairwise_map.2 hp

/-- C1, at the scenario of the specification: the file tokens `out=f1.txt` and
`out=f2.txt` give one entry `out`, read from `f1.txt`. -/
theorem createEntries_first_writer_wins_witness :
    ∃ out, createEntries demoWorld [] [str "out=f1.txt", str "out=f2.txt"] =
        ([Event.walk (str "f1.txt"), Event.walk (str "f2.txt")], .ret (out, none)) ∧
      (∀ n ∈ [entry.file ⟨str "out", str "f1.txt"⟩,
              entry.file ⟨str "out", str "f2.txt"⟩].map entry.Name,
        ∃ e, [entry.file ⟨str "out", str "f1.txt"⟩,
              entry.file ⟨str "out", str "f2.txt"⟩].find? (fun e => e.Name = n) = some e ∧
          out.filter (fun x => x.Name = n) = [e]) ∧
      (∀ e ∈ out, e.Name ∈ [entry.file ⟨str "out", str "f1.txt"⟩,
              entry.file ⟨str "out", str "f2.txt"⟩].map entry.Name) ∧
      (out.map entry.Name).Nodup :=
  createEntries_first_writer_wins demoWorld [] [str "out=f1.txt", str "out=f2.txt"]
    [Event.walk (str "f1.txt"), Event.walk (str "f2.txt")]
    [entry.file ⟨str "out", str "f1.txt"⟩, entry.file ⟨str "out", str "f2.txt"⟩] (by rfl)

/-- C2. When `createEntries` succeeds, the returned list is a permutation of the
deduplicated accumulator and is strictly ascending in the byte-wise
lexicographic order of `Name` (the order `<` of `GoString`, see
`goString_lt_iff`): at positions `i < j`, the name at `i` is less than the name
at `j`. -/
theorem createEntries_sorted (w : World) (archives files : List GoString)
    (ev : List Event) (out : List entry)
    (h : createEntries w archives files = (ev, .ret (out, none))) :
    ∃ acc, accumulate w archives files = (ev, .ret (acc, none)) ∧
      out.Perm (dedup acc) ∧
      ∀ (i j : Nat) (hij : i < j) (hj : j < out.length),
        (out.get ⟨i, hij.trans hj⟩).Name < (out.get ⟨j, hj⟩).Name := by
  obtain ⟨acc, hacc, rfl⟩ := accumulate_of_createEntries w archives files ev out h
  refine ⟨acc, hacc, sortSlice_perm lessName _, ?_⟩
  intro i j hij hj
  have hs := sortSlice_sorted (dedup acc) (dedup_pairwise acc)
  exact (List.pairwise_iff_getElem.1 hs) i j (hij.trans hj) hj hij

/-- C2, on the archives `A.zip` and `B.zip` of the demo world. -/
theorem createEntries_sorted_witness :
    ∃ acc, accumulate demoWorld [str "B.zip", str "A.zip"] [] =
        ([Event.openReader (str "B.zip"), Event.openReader (str "A.zip")],
          .ret (acc, none)) ∧
      [entry.archive ⟨str "x", str "B.zip", str "x"⟩,
        entry.archive ⟨str "y", str "A.zip", str "y"⟩,
        entry.archive ⟨str "z", str "B.zip", str "z"⟩].Perm (dedup acc) ∧
      ∀ (i j : Nat) (hij : i < j) (hj : j < 3),
        ([entry.archive ⟨str "x", str "B.zip", str "x"⟩,
          entry.archive ⟨str "y", str "A.zip", str "y"⟩,
          entry.archive ⟨str "z", str "B.zip", str "z"⟩].get ⟨i, hij.trans hj⟩).Name <
        ([entry.archive ⟨str "x", str "B.zip", str "x"⟩,
          entry.archive ⟨str "y", str "A.zip", str "y"⟩,
          entry.archive ⟨str "z", str "B.zip", str "z"⟩].get ⟨j, hj⟩).Name :=
  createEntries_sorted demoWorld [str "B.zip", str "A.zip"] []
    [Event.openReader (str "B.zip"), Event.openReader (str "A.zip")]
    [entry.archive ⟨str "x", str "B.zip", str "x"⟩,
      entry.archive ⟨str "y", str "A.zip", str "y"⟩,
      entry.archive ⟨str "z", str "B.zip", str "z"⟩] (by rfl)

theorem find_flatMap (l : List GoString) (f : GoString → List entry) (p : entry → Bool)
    (e : entry) (h : (l.flatMap f).find? p = some e) :
    ∃ pre s post, l = pre ++ s :: post ∧ (∀ t ∈ pre, ∀ y ∈ f t, ¬ p y = true) ∧
      (f s).find? p = some e := by
  induction l with
  | nil => simp at h
  | cons t rest ih =>
    rw [List.flatMap_cons, List.find?_append] at h
    cases ht : (f t).find? p with
    | some e1 =>
      rw [ht] at h
      simp only [Option.or_some, Option.some.injEq] at h
      subst h
      exact ⟨[], t, rest, rfl, by simp, ht⟩
    | none =>
      rw [ht] at h
      simp only [Option.none_or] at h
      obtain ⟨pre, s, post, hl, hpre, hs⟩ := ih h
      refine ⟨t :: pre, s, post, by rw [hl]; rfl, ?_, hs⟩
      intro u hu
      rcases List.mem_cons.1 hu with rfl | hu
      · exact List.find?_eq_none.1 ht
      · exact hpre u hu

theorem archiveYield_shape (w : World) (s : GoString) (e : entry)
    (h : e ∈ archiveYield w s) :
    ∃ a : archiveEntry, e = entry.archive a ∧ a.archivePath = (archiveSpec s).2 := by
  unfold archiveYield appendArchive at h
  cases hx : w.OpenReader (archiveSpec s).2 with
  | error err => rw [hx] at h; simp at h
  | ok fs =>
    rw [hx] at h
    simp only [List.nil_append, List.mem_map] at h
    obtain ⟨file, _, rfl⟩ := h
    exact ⟨_, rfl, rfl⟩

/-- C3. Precedence: when `createEntries` succeeds and some archive token yields
an entry named `x`, then (also when a file token yields an entry named `x`) the
one returned entry named `x` is an `archiveEntry`, it is the first entry named
`x` of the first archive token that yields that name, and no returned
`fileEntry` is named `x`. -/
theorem createEntries_precedence (w : World) (archives files : List GoString)
    (ev : List Event) (out : List entry) (x : GoString)
    (h : createEntries w archives files = (ev, .ret (out, none)))
    (ha : ∃ s ∈ archives, x ∈ (archiveYield w s).map entry.Name) :
    ∃ a : archiveEntry, out.filter (fun e => e.Name = x) = [entry.archive a] ∧
      (∀ f : fileEntry, entry.file f ∈ out → f.name ≠ x) ∧
      ∃ pre s post, archives = pre ++ s :: post ∧
        (∀ t ∈ pre, x ∉ (archiveYield w t).map entry.Name) ∧
        (archiveYield w s).find? (fun e => e.Name = x) = some (entry.archive a) ∧
        a.archivePath = (archiveSpec s).2 := by
  obtain ⟨acc, hacc, rfl⟩ := accumulate_of_createEntries w archives files ev out h
  obtain ⟨hoka, hokf⟩ := accumulate_ok_inv w archives files acc (by rw [hacc])
  have hacc2 := accumulate_ok w archives files hoka hokf
  rw [hacc] at hacc2
  simp only [Prod.mk.injEq, Outcome.ret.injEq, and_true] at hacc2
  obtain ⟨-, hacc3⟩ := hacc2
  have hxA : x ∈ (archives.flatMap (archiveYield w)).map entry.Name := by
    obtain ⟨s, hs, hx⟩ := ha
    obtain ⟨e, he, rfl⟩ := List.mem_map.1 hx
    exact List.mem_map_of_mem _ (List.mem_flatMap.2 ⟨s, hs, he⟩)
  obtain ⟨e, he⟩ := find_of_mem_names _ x hxA
  have hfind : acc.find? (fun e => e.Name = x) = some e := by
    rw [hacc3, List.find?_append, he]; rfl
  obtain ⟨pre, s, post, hl, hpre, hs⟩ := find_flatMap archives (archiveYield w) _ e he
  obtain ⟨a, rfl, hpath⟩ := archiveYield_shape w s e (List.mem_of_find?_eq_some hs)
  have hfilter := filter_sort_dedup acc x _ hfind
  refine ⟨a, hfilter, ?_, pre, s, post, hl, ?_, hs, hpath⟩
  · intro f hf hname
    have : entry.file f ∈ (sortSlice lessName (dedup acc)).filter (fun e => e.Name = x) :=
      List.mem_filter.2 ⟨hf, by simpa [entry.Name] using hname⟩
    rw [hfilter] at this
    simp at this
  · intro t ht hx
    obtain ⟨y, hy, hyn⟩ := List.mem_map.1 hx
    exact hpre t ht y hy (by simpa using hyn)

/-- C3, on a collision: `B.zip` and `A.zip` both hold `x`, and the file token
`x` also yields the name `x`; the entry returned for `x` is the one of `B.zip`,
the first archive token. -/
theorem createEntries_precedence_witness :
    ∃ a : archiveEntry,
      [entry.archive ⟨str "x", str "B.zip", str "x"⟩,
        entry.archive ⟨str "y", str "A.zip", str "y"⟩,
        entry.archive ⟨str "z", str "B.zip", str "z"⟩].filter (fun e => e.Name = str "x") =
        [entry.archive a] ∧
      (∀ f : fileEntry, entry.file f ∈ [entry.archive ⟨str "x", str "B.zip", str "x"⟩,
        entry.archive ⟨str "y", str "A.zip", str "y"⟩,
        entry.archive ⟨str "z", str "B.zip", str "z"⟩] → f.name ≠ str "x") ∧
      ∃ pre s post, [str "B.zip", str "A.zip"] = pre ++ s :: post ∧
        (∀ t ∈ pre, str "x" ∉ (archiveYield demoWorld t).map entry.Name) ∧
        (archiveYield demoWorld s).find? (fun e => e.Name = str "x") = some (entry.archive a) ∧
        a.archivePath = (archiveSpec s).2 :=
  createEntries_precedence demoWorld [str "B.zip", str "A.zip"] [str "x"]
    [Event.openReader (str "B.zip"), Event.openReader (str "A.zip"), Event.walk (str "x")]
    [entry.archive ⟨str "x", str "B.zip", str "x"⟩,
      entry.archive ⟨str "y", str "A.zip", str "y"⟩,
      entry.archive ⟨str "z", str "B.zip", str "z"⟩] (str "x") (by rfl)
    ⟨str "A.zip", by decide, by decide⟩

/-- C4. Order invariance: when `createEntries` succeeds on `archives` and
`files`, it succeeds on every permutation of the archive tokens together with
every permutation of the file tokens, and returns the same sequence of names. -/
theorem createEntries_order_invariant (w : World)
    (archives files archives' files' : List GoString) (ev : List Event) (out : List entry)
    (h : createEntries w archives files = (ev, .ret (out, none)))
    (hpa : archives'.Perm archives) (hpf : files'.Perm files) :
    ∃ ev' out', createEntries w archives' files' = (ev', .ret (out', none)) ∧
      out'.map entry.Name = out.map entry.Name := by
  obtain ⟨acc, hacc, rfl⟩ := accumulate_of_createEntries w archives files ev out h
  obtain ⟨hoka, hokf⟩ := accumulate_ok_inv w archives files acc (by rw [hacc])
  have hacc2 := accumulate_ok w archives files hoka hokf
  rw [hacc] at hacc2
  simp only [Prod.mk.injEq, Outcome.ret.injEq, and_true] at hacc2
  obtain ⟨-, hacc3⟩ := hacc2
  have hoka' : ∀ t ∈ archives', archiveOk w t := fun t ht => hoka t (hpa.mem_iff.1 ht)
  have hokf' : ∀ t ∈ files', fileOk w t := fun t ht => hokf t (hpf.mem_iff.1 ht)
  have hacc' := accumulate_ok w archives' files' hoka' hokf'
  refine ⟨_, _, createEntries_of_accumulate w archives' files' _ _ hacc', ?_⟩
  have hperm : (archives'.flatMap (archiveYield w) ++ files'.flatMap (fileYield w)).Perm acc := by
    rw [hacc3]
    exact (List.Perm.flatMap_right _ hpa).append (List.Perm.flatMap_right _ hpf)
  have hsorted : ∀ l : List entry,
      ((sortSlice lessName (dedup l)).map entry.Name).Pairwise (· < ·) := fun l =>
    List.pairwise_map.2 (sortSlice_sorted (dedup l) (dedup_pairwise l))
  have hnodup : ∀ l : List entry, ((sortSlice lessName (dedup l)).map entry.Name).Nodup :=
    fun l => (hsorted l).imp (fun h => ne_of_lt h)
  have hp : ((sortSlice lessName (dedup (archives'.flatMap (archiveYield w) ++
      files'.flatMap (fileYield w)))).map entry.Name).Perm
      ((sortSlice lessName (dedup acc)).map entry.Name) := by
    refine (List.perm_ext_iff_of_nodup (hnodup _) (hnodup _)).2 (fun n => ?_)
    rw [mem_names_sort_dedup, mem_names_sort_dedup]
    exact (hperm.map entry.Name).mem_iff
  haveI : IsAntisymm GoString (· < ·) := ⟨fun a b hab hba => absurd hab (lt_asymm hba)⟩
  exact List.eq_of_perm_of_sorted hp (hsorted _) (hsorted _)

/-- C4, on a collision: swapping the archive tokens `B.zip` and `A.zip` (both
hold `x`) and the file tokens leaves the returned names `f`, `x`, `y`, `z` as
they are. -/
theorem createEntries_order_invariant_witness :
    ∃ ev' out', createEntries demoWorld [str "A.zip", str "B.zip"] [str "f=f2.txt", str "f=f1.txt"] =
        (ev', .ret (out', none)) ∧
      out'.map entry.Name =
        [entry.file ⟨str "f", str "f1.txt"⟩,
          entry.archive ⟨str "x", str "B.zip", str "x"⟩,
          entry.archive ⟨str "y", str "A.zip", str "y"⟩,
          entry.archive ⟨str "z", str "B.zip", str "z"⟩].map entry.Name :=
  createEntries_order_invariant demoWorld [str "B.zip", str "A.zip"]
    [str "f=f1.txt", str "f=f2.txt"] [str "A.zip", str "B.zip"] [str "f=f2.txt", str "f=f1.txt"]
    [Event.openReader (str "B.zip"), Event.openReader (str "A.zip"),
      Event.walk (str "f1.txt"), Event.walk (str "f2.txt")]
    [entry.file ⟨str "f", str "f1.txt"⟩,
      entry.archive ⟨str "x", str "B.zip", str "x"⟩,
      entry.archive ⟨str "y", str "A.zip", str "y"⟩,
      entry.archive ⟨str "z", str "B.zip", str "z"⟩] (by rfl)
    (List.Perm.swap _ _ _) (List.Perm.swap _ _ _)

/-! ## Properties of the walk -/

theorem walkLoop_ok (name path : GoString) (nodes : List WalkNode) (entries : List entry)
    (h : ∀ n ∈ nodes, nodeOk path n) :
    walkLoop name path nodes entries =
      .ret (entries ++ (nodes.filter (fun n => !n.isDir)).map (nodeEntry name path), none) := by
  induction nodes generalizing entries with
  | nil => simp [walkLoop]
  | cons n ns ih =>
    obtain ⟨herr, hlen⟩ := h n (List.mem_cons_self _ _)
    have hns : ∀ m ∈ ns, nodeOk path m := fun m hm => h m (List.mem_cons_of_mem _ hm)
    simp only [walkLoop, walkFn, herr]
    by_cases hd : n.isDir = true
    · simp [hd, ih _ hns]
    · have hd1 : n.isDir = false := by simpa using hd
      simp [hd1, hlen hd1, ih _ hns, nodeEntry]

theorem walkLoop_fail (name path : GoString) (good : List WalkNode) (bad : WalkNode)
    (rest : List WalkNode) (entries : List entry) (e : GoError)
    (h : ∀ n ∈ good, nodeOk path n) (hbad : bad.err = some e) :
    walkLoop name path (good ++ bad :: rest) entries =
      .ret (entries ++ (good.filter (fun n => !n.isDir)).map (nodeEntry name path),
        some (GoError.traverse bad.filePath e)) := by
  induction good generalizing entries with
  | nil => simp [walkLoop, walkFn, hbad]
  | cons n ns ih =>
    obtain ⟨herr, hlen⟩ := h n (List.mem_cons_self _ _)
    have hns : ∀ m ∈ ns, nodeOk path m := fun m hm => h m (List.mem_cons_of_mem _ hm)
    simp only [List.cons_append, walkLoop, walkFn, herr]
    by_cases hd : n.isDir = true
    · simp [hd, ih _ hns]
    · have hd1 : n.isDir = false := by simpa using hd
      simp [hd1, hlen hd1, ih _ hns, nodeEntry]

theorem fileSpec_eq_cons (root : GoString) : fileSpec (eqByte :: root) = ([], root) := by
  simp [fileSpec, SplitN]

/-- C6 (amended). For the file token `=root`, when the walk of `root` reports no
error and every visited path extends `root`, `createEntries` succeeds and each
regular file visited at path `root/r` yields the entry named `/r`: the visited
path with the bytes of `root` removed, the separator included. Every returned
entry arises so. For the directory `dir` holding `a.txt` and `sub/b.txt` and
the token `=dir`, the returned entries are `/a.txt` and `/sub/b.txt`, in that
order. -/
theorem createEntries_dir_names :
    (∀ (w : World) (root : GoString),
      (∀ n ∈ w.Walk root, n.err = none ∧ root <+: n.filePath) →
      ∃ out, createEntries w [] [eqByte :: root] = ([Event.walk root], .ret (out, none)) ∧
        (∀ r, (∃ n ∈ w.Walk root, n.isDir = false ∧ n.filePath = root ++ slash :: r) →
          entry.file ⟨slash :: r, root ++ slash :: r⟩ ∈ out) ∧
        (∀ e ∈ out, ∃ n ∈ w.Walk root, n.isDir = false ∧
          e = entry.file ⟨n.filePath.drop root.length, n.filePath⟩)) ∧
    createEntries demoWorld [] [str "=dir"] =
      ([Event.walk (str "dir")],
        .ret ([entry.file ⟨str "/a.txt", str "dir/a.txt"⟩,
               entry.file ⟨str "/sub/b.txt", str "dir/sub/b.txt"⟩], none)) := by
  refine ⟨?_, by rfl⟩
  intro w root h
  have hok : ∀ n ∈ w.Walk root, nodeOk root n := by
    intro n hn
    obtain ⟨herr, hpre⟩ := h n hn
    exact ⟨herr, fun _ => hpre.length_le⟩
  have hacc : accumulate w [] [eqByte :: root] =
      ([Event.walk root],
        .ret (((w.Walk root).filter (fun n => !n.isDir)).map (nodeEntry [] root), none)) := by
    simp [accumulate, archiveLoop, fileLoop, fileSpec_eq_cons, appendFiles,
      walkLoop_ok [] root (w.Walk root) [] hok]
  have hmem : ∀ e, e ∈ ((w.Walk root).filter (fun n => !n.isDir)).map (nodeEntry [] root) ↔
      ∃ n ∈ w.Walk root, n.isDir = false ∧
        e = entry.file ⟨n.filePath.drop root.length, n.filePath⟩ := by
    intro e
    simp only [List.mem_map, List.mem_filter, nodeEntry, List.nil_append]
    constructor
    · rintro ⟨n, ⟨hn, hd⟩, rfl⟩
      exact ⟨n, hn, by simpa using hd, rfl⟩
    · rintro ⟨n, hn, hd, rfl⟩
      exact ⟨n, ⟨hn, by simp [hd]⟩, rfl⟩
  refine ⟨_, createEntries_of_accumulate w [] _ _ _ hacc, ?_, ?_⟩
  · rintro r ⟨n, hn, hd, hpath⟩
    have hin : entry.file ⟨slash :: r, root ++ slash :: r⟩ ∈
        ((w.Walk root).filter (fun n => !n.isDir)).map (nodeEntry [] root) := by
      rw [hmem]
      exact ⟨n, hn, hd, by simp [hpath]⟩
    obtain ⟨e1, he1⟩ := find_of_mem_names _ (slash :: r) (List.mem_map_of_mem entry.Name hin)
    have hname : e1.Name = slash :: r := find_name _ _ _ he1
    obtain ⟨m, hm, -, rfl⟩ := (hmem e1).1 (List.mem_of_find?_eq_some he1)
    obtain ⟨t, ht⟩ := (h m hm).2
    have hdrop : t = slash :: r := by
      simpa [entry.Name, ← ht] using hname
    have hmpath : m.filePath = root ++ slash :: r := by rw [← ht, hdrop]
    have he1' : entry.file ⟨m.filePath.drop root.length, m.filePath⟩ =
        entry.file ⟨slash :: r, root ++ slash :: r⟩ := by
      rw [hmpath]; simp
    rw [he1'] at he1
    exact (sortSlice_perm lessName _).mem_iff.2 ((mem_dedup _ _).2 he1)
  · intro e he
    have hd : e ∈ dedup _ := (sortSlice_perm lessName _).mem_iff.1 he
    exact (hmem e).1 (List.mem_of_find?_eq_some ((mem_dedup _ e).1 hd))

/-- C6 (amended), on the directory `dir` of the demo world. -/
theorem createEntries_dir_names_witness :
    ∃ out, createEntries demoWorld [] [eqByte :: str "dir"] =
        ([Event.walk (str "dir")], .ret (out, none)) ∧
      (∀ r, (∃ n ∈ demoWorld.Walk (str "dir"),
          n.isDir = false ∧ n.filePath = str "dir" ++ slash :: r) →
        entry.file ⟨slash :: r, str "dir" ++ slash :: r⟩ ∈ out) ∧
      (∀ e ∈ out, ∃ n ∈ demoWorld.Walk (str "dir"), n.isDir = false ∧
        e = entry.file ⟨n.filePath.drop (str "dir").length, n.filePath⟩) :=
  createEntries_dir_names.1 demoWorld (str "dir") (by decide)

/-- C6 as stated fails: for the directory `dir` holding `a.txt` and `sub/b.txt`
and the token `=dir`, the returned names are `/a.txt` and `/sub/b.txt`, each
with the leading separator, not `a.txt` and `sub/b.txt`. -/
theorem createEntries_dir_names_counterexample :
    ∃ ev out, createEntries demoWorld [] [str "=dir"] = (ev, .ret (out, none)) ∧
      out.map entry.Name = [str "/a.txt", str "/sub/b.txt"] ∧
      out.map entry.Name ≠ [str "a.txt", str "sub/b.txt"] :=
  ⟨[Event.walk (str "dir")],
    [entry.file ⟨str "/a.txt", str "dir/a.txt"⟩,
      entry.file ⟨str "/sub/b.txt", str "dir/sub/b.txt"⟩], by rfl, by rfl, by decide⟩

/-! ## Properties of `Write` -/

/-- C5 (the code departs from it). Method `archiveEntry.Write` does not return
an error when the source archive cannot be opened, nor when the archive opens
but holds no entry at the stored path: in both cases it panics, after the one
call of `zip.OpenReader` and before anything is handed to the destination
writer. -/
theorem archiveEntry_Write_panics (w : World) (e : archiveEntry) (method : Nat) :
    (∀ err, w.OpenReader e.archivePath = .error err →
      archiveEntry.Write w e method = ([Event.openReader e.archivePath], .panic)) ∧
    (∀ files, w.OpenReader e.archivePath = .ok files →
      (∀ file ∈ files, file.FileHeader.Name ≠ e.path) →
      archiveEntry.Write w e method = ([Event.openReader e.archivePath], .panic)) := by
  constructor
  · intro err h
    simp [archiveEntry.Write, h]
  · intro files h hnone
    have hfind : files.find? (fun file => decide (file.FileHeader.Name = e.path)) = none := by
      rw [List.find?_eq_none]
      intro file hfile
      simpa using hnone file hfile
    simp [archiveEntry.Write, h, hfind]

/-- C5, at the failing inputs: the archive `missing.zip` does not exist, and
`A.zip` (members `x`, `y`) has no member `q`. -/
theorem archiveEntry_Write_panics_witness :
    archiveEntry.Write demoWorld ⟨str "q", str "missing.zip", str "q"⟩ Store =
        ([Event.openReader (str "missing.zip")], .panic) ∧
      archiveEntry.Write demoWorld ⟨str "q", str "A.zip", str "q"⟩ Store =
        ([Event.openReader (str "A.zip")], .panic) :=
  ⟨(archiveEntry_Write_panics demoWorld ⟨str "q", str "missing.zip", str "q"⟩ Store).1
      (GoError.ext 1) (by rfl),
    (archiveEntry_Write_panics demoWorld ⟨str "q", str "A.zip", str "q"⟩ Store).2
      [plainFile (str "x") 420 [1], plainFile (str "y") 420 [2]] (by rfl) (by
        intro file hfile
        simp only [List.mem_cons, List.mem_singleton, List.not_mem_nil, or_false] at hfile
        rcases hfile with rfl | rfl <;> decide)⟩

/-- C7. Both variants of `Write` hand to `CreateHeader` the base header with
exactly `Name`, `Method` and `Modified` assigned: `Name` is the entry's
`Name()`, `Method` the requested method, `Modified` the fixed instant, and
every other field (the external attributes among them) is that of the base
header. The base is the header of the archive member found at the stored path
for an `archiveEntry`, and `zip.FileInfoHeader(info)` for a `fileEntry`. That
call of `CreateHeader` is the only one `Write` makes. -/
theorem Write_header_frame (w : World) (method : Nat) :
    (∀ (e : archiveEntry) (files : List ZipFile) (sourceFile : ZipFile),
      w.OpenReader e.archivePath = .ok files →
      files.find? (fun file => file.FileHeader.Name = e.path) = some sourceFile →
      ∃ header rest result,
        archiveEntry.Write w e method =
          (Event.openReader e.archivePath :: Event.createHeader header :: rest, result) ∧
        (∀ h, Event.createHeader h ∉ rest) ∧
        header.Name = (entry.archive e).Name ∧ header.Method = method ∧
        header.Modified = Time.Unix 1262329200 0 ∧
        preservedFields header sourceFile.FileHeader) ∧
    (∀ (e : fileEntry) (file : OsFile) (info : FileInfo) (base : FileHeader),
      w.Open e.Path = .ok file → file.Stat = .ok info → w.FileInfoHeader info = .ok base →
      ∃ header rest result,
        fileEntry.Write w e method =
          (Event.openFile e.Path :: Event.createHeader header :: rest, result) ∧
        (∀ h, Event.createHeader h ∉ rest) ∧
        header.Name = (entry.file e).Name ∧ header.Method = method ∧
        header.Modified = Time.Unix 1262329200 0 ∧
        preservedFields header base) := by
  constructor
  · intro e files sourceFile hopen hfind
    simp only [archiveEntry.Write, hopen, hfind]
    cases hc : w.CreateHeader { sourceFile.FileHeader with
        Name := e.name, Method := method, Modified := Time.Unix 1262329200 0 } with
    | some err =>
      exact ⟨_, [], _, rfl, by simp, rfl, rfl, rfl, by simp [preservedFields]⟩
    | none =>
      cases ho : sourceFile.Open with
      | error err =>
        exact ⟨_, [], _, rfl, by simp, rfl, rfl, rfl, by simp [preservedFields]⟩
      | ok c =>
        obtain ⟨bytes, cerr⟩ := c
        cases cerr with
        | none =>
          exact ⟨_, [Event.copy bytes], _, rfl, by simp, rfl, rfl, rfl,
            by simp [preservedFields]⟩
        | some err =>
          exact ⟨_, [Event.copy bytes], _, rfl, by simp, rfl, rfl, rfl,
            by simp [preservedFields]⟩
  · intro e file info base hopen hstat hinfo
    simp only [fileEntry.Write, hopen, hstat, hinfo]
    cases hc : w.CreateHeader { base with
        Name := e.name, Method := method, Modified := Time.Unix 1262329200 0 } with
    | some err =>
      exact ⟨_, [], _, rfl, by simp, rfl, rfl, rfl, by simp [preservedFields]⟩
    | none =>
      cases hr : file.Read with
      | mk bytes cerr =>
        cases cerr with
        | none =>
          exact ⟨_, [Event.copy bytes], _, rfl, by simp, rfl, rfl, rfl,
            by simp [preservedFields]⟩
        | some err =>
          exact ⟨_, [Event.copy bytes], _, rfl, by simp, rfl, rfl, rfl,
            by simp [preservedFields]⟩

/-- C7, on the demo world: the member `x` of `B.zip` written as `lib/x`, and
the file `f2.txt` written as `out`, both deflated. -/
theorem Write_header_frame_witness :
    (∃ header rest result,
      archiveEntry.Write demoWorld ⟨str "lib/x", str "B.zip", str "x"⟩ Deflate =
        (Event.openReader (str "B.zip") :: Event.createHeader header :: rest, result) ∧
      (∀ h, Event.createHeader h ∉ rest) ∧
      header.Name = (entry.archive ⟨str "lib/x", str "B.zip", str "x"⟩).Name ∧
      header.Method = Deflate ∧ header.Modified = Time.Unix 1262329200 0 ∧
      preservedFields header (plainFile (str "x") 493 [3]).FileHeader) ∧
    (∃ header rest result,
      fileEntry.Write demoWorld ⟨str "out", str "f2.txt"⟩ Deflate =
        (Event.openFile (str "f2.txt") :: Event.createHeader header :: rest, result) ∧
      (∀ h, Event.createHeader h ∉ rest) ∧
      header.Name = (entry.file ⟨str "out", str "f2.txt"⟩).Name ∧
      header.Method = Deflate ∧ header.Modified = Time.Unix 1262329200 0 ∧
      preservedFields header
        { plainHeader (str "f2.txt") (493 * 65536) with
          Modified := Time.Unix 1600000000 0, UncompressedSize64 := 1 }) :=
  ⟨(Write_header_frame demoWorld Deflate).1 ⟨str "lib/x", str "B.zip", str "x"⟩
      [plainFile (str "x") 493 [3], plainFile (str "z") 420 [4]]
      (plainFile (str "x") 493 [3]) (by rfl) (by rfl),
    (Write_header_frame demoWorld Deflate).2 ⟨str "out", str "f2.txt"⟩
      (plainOsFile (str "f2.txt") 493 [6])
      { Name := str "f2.txt", Size := 1, Mode := 493, ModTime := Time.Unix 1600000000 0,
        IsDir := false }
      { plainHeader (str "f2.txt") (493 * 65536) with
        Modified := Time.Unix 1600000000 0, UncompressedSize64 := 1 }
      (by rfl) (by rfl) (by rfl)⟩

/-- C8 (amended). Every header that `archiveEntry.Write` or `fileEntry.Write`
hands to `CreateHeader` carries one and the same modification time, whatever the
source and its own timestamp: `time.Unix(1262329200, 0)`, which is the instant
2010-01-01T07:00:00Z. -/
theorem Write_modified_constant (w : World) (method : Nat) (h : FileHeader) :
    (∀ e : archiveEntry, Event.createHeader h ∈ (archiveEntry.Write w e method).1 →
      h.Modified = fixedModified) ∧
    (∀ e : fileEntry, Event.createHeader h ∈ (fileEntry.Write w e method).1 →
      h.Modified = fixedModified) ∧
    fixedModified = ⟨1262329200, 0⟩ ∧
    fixedModified = Time.Unix (utcToUnix 2010 1 1 7 0 0) 0 := by
  refine ⟨?_, ?_, by decide, by decide⟩
  · intro e hm
    unfold archiveEntry.Write at hm
    cases hopen : w.OpenReader e.archivePath with
    | error err => simp [hopen] at hm
    | ok files =>
      cases hfind : files.find? (fun file => decide (file.FileHeader.Name = e.path)) with
      | none => simp [hopen, hfind] at hm
      | some sourceFile =>
        simp only [hopen, hfind] at hm
        cases hc : w.CreateHeader { sourceFile.FileHeader with
            Name := e.name, Method := method, Modified := Time.Unix 1262329200 0 } with
        | some err =>
          simp only [hc] at hm
          simp at hm
          subst hm; rfl
        | none =>
          simp only [hc] at hm
          cases ho : sourceFile.Open with
          | error err =>
            simp only [ho] at hm
            simp at hm
            subst hm; rfl
          | ok c =>
            obtain ⟨bytes, cerr⟩ := c
            cases cerr <;>
            · simp only [ho] at hm
              simp at hm
              subst hm; rfl
  · intro e hm
    unfold fileEntry.Write at hm
    cases hopen : w.Open e.Path with
    | error err => simp [hopen] at hm
    | ok file =>
      cases hstat : file.Stat with
      | error err => simp [hopen, hstat] at hm
      | ok info =>
        cases hinfo : w.FileInfoHeader info with
        | error err => simp [hopen, hstat, hinfo] at hm
        | ok base =>
          simp only [hopen, hstat, hinfo] at hm
          cases hc : w.CreateHeader { base with
              Name := e.name, Method := method, Modified := Time.Unix 1262329200 0 } with
          | some err =>
            simp only [hc] at hm
            simp at hm
            subst hm; rfl
          | none =>
            simp only [hc] at hm
            cases hr : file.Read with
            | mk bytes cerr =>
              cases cerr <;>
              · simp only [hr] at hm
                simp at hm
                subst hm; rfl

/-- C8 (amended), on the file `f1.txt` of the demo world, whose own timestamp is
`time.Unix(1600000000, 0)`. -/
theorem Write_modified_constant_witness :
    Event.createHeader
        { plainHeader (str "out") (420 * 65536) with
          Modified := Time.Unix 1262329200 0, UncompressedSize64 := 1 } ∈
      (fileEntry.Write demoWorld ⟨str "out", str "f1.txt"⟩ Store).1 ∧
    (Time.Unix 1262329200 0) = fixedModified :=
  ⟨by decide,
    (Write_modified_constant demoWorld Store
      { plainHeader (str "out") (420 * 65536) with
        Modified := Time.Unix 1262329200 0, UncompressedSize64 := 1 }).2.1
      ⟨str "out", str "f1.txt"⟩ (by decide)⟩

/-- C8 as stated fails: the header `fileEntry.Write` hands over for `f1.txt`
carries the instant 2010-01-01T07:00:00Z, two hours after
2010-01-01T05:00:00Z. -/
theorem Write_modified_counterexample :
    ∃ header, Event.createHeader header ∈
        (fileEntry.Write demoWorld ⟨str "out", str "f1.txt"⟩ Store).1 ∧
      header.Modified = Time.Unix (utcToUnix 2010 1 1 7 0 0) 0 ∧
      header.Modified ≠ Time.Unix (utcToUnix 2010 1 1 5 0 0) 0 ∧
      header.Modified.sec - utcToUnix 2010 1 1 5 0 0 = 7200 :=
  ⟨{ plainHeader (str "out") (420 * 65536) with
      Modified := Time.Unix 1262329200 0, UncompressedSize64 := 1 },
    by decide, by decide, by decide, by decide⟩

/-! ## Token parsing and abort on failure -/

theorem fileLoop_single (w : World) (tok : GoString) (entries : List entry) :
    fileLoop w [tok] entries = appendFiles w entries (fileSpec tok).1 (fileSpec tok).2 := by
  simp only [fileLoop, appendFiles]
  cases walkLoop (fileSpec tok).1 (fileSpec tok).2 (w.Walk (fileSpec tok).2) entries with
  | panic => rfl
  | ret a =>
    obtain ⟨es, e⟩ := a
    cases e <;> simp

theorem archiveLoop_single (w : World) (tok : GoString) (entries : List entry) :
    archiveLoop w [tok] entries =
      appendArchive w entries (archiveSpec tok).1 (archiveSpec tok).2 := by
  simp only [archiveLoop, appendArchive]
  cases w.OpenReader (archiveSpec tok).2 <;> simp

/-- C9. Token parsing in `createEntries`. A token `a=b` whose part `a` has no
`=` is resolved with remap prefix `a` and source path `b` (later `=` stay in
`b`), as an archive token and as a file token alike. A token `t` without `=` is
resolved with the empty prefix and path `t` as an archive token, and with prefix
`t` and path `t` as a file token. -/
theorem token_parsing (w : World) (entries : List entry) :
    (∀ a b : GoString, eqByte ∉ a →
      archiveSpec (a ++ eqByte :: b) = (a, b) ∧ fileSpec (a ++ eqByte :: b) = (a, b) ∧
      archiveLoop w [a ++ eqByte :: b] entries = appendArchive w entries a b ∧
      fileLoop w [a ++ eqByte :: b] entries = appendFiles w entries a b) ∧
    (∀ t : GoString, eqByte ∉ t →
      archiveSpec t = ([], t) ∧ fileSpec t = (t, t) ∧
      archiveLoop w [t] entries = appendArchive w entries [] t ∧
      fileLoop w [t] entries = appendFiles w entries t t) := by
  constructor
  · intro a b h
    have h1 : archiveSpec (a ++ eqByte :: b) = (a, b) := by
      simp [archiveSpec, SplitN_sep a b h]
    have h2 : fileSpec (a ++ eqByte :: b) = (a, b) := by
      simp [fileSpec, SplitN_sep a b h]
    refine ⟨h1, h2, ?_, ?_⟩
    · rw [archiveLoop_single, h1]
    · rw [fileLoop_single, h2]
  · intro t h
    have h1 : archiveSpec t = ([], t) := by
      simp [archiveSpec, SplitN_no_sep t h]
    have h2 : fileSpec t = (t, t) := by
      simp [fileSpec, SplitN_no_sep t h]
    refine ⟨h1, h2, ?_, ?_⟩
    · rw [archiveLoop_single, h1]
    · rw [fileLoop_single, h2]

/-- C9, on the tokens `lib/=A=1.zip` and `A.zip`. -/
theorem token_parsing_witness :
    (archiveSpec (str "lib/=A=1.zip") = (str "lib/", str "A=1.zip") ∧
      fileSpec (str "lib/=A=1.zip") = (str "lib/", str "A=1.zip") ∧
      archiveLoop demoWorld [str "lib/=A=1.zip"] [] =
        appendArchive demoWorld [] (str "lib/") (str "A=1.zip") ∧
      fileLoop demoWorld [str "lib/=A=1.zip"] [] =
        appendFiles demoWorld [] (str "lib/") (str "A=1.zip")) ∧
    (archiveSpec (str "A.zip") = ([], str "A.zip") ∧
      fileSpec (str "A.zip") = (str "A.zip", str "A.zip") ∧
      archiveLoop demoWorld [str "A.zip"] [] = appendArchive demoWorld [] [] (str "A.zip") ∧
      fileLoop demoWorld [str "A.zip"] [] =
        appendFiles demoWorld [] (str "A.zip") (str "A.zip")) :=
  ⟨(token_parsing demoWorld []).1 (str "lib/") (str "A=1.zip") (by decide),
    (token_parsing demoWorld []).2 (str "A.zip") (by decide)⟩

theorem appendArchive_err (w : World) (name path : GoString) (err : GoError)
    (h : (appendArchive w [] name path).2.2 = some err) : w.OpenReader path = .error err := by
  unfold appendArchive at h
  cases hx : w.OpenReader path with
  | error e =>
    rw [hx] at h
    simp only [Option.some.injEq] at h
    rw [h]
  | ok fs => rw [hx] at h; simp at h

theorem archiveLoop_err_inv (w : World) (archives : List GoString) (entries : List entry)
    (err : GoError) (h : (archiveLoop w archives entries).2.2 = some err) :
    ∃ pre tok post, archives = pre ++ tok :: post ∧ (∀ t ∈ pre, archiveOk w t) ∧
      w.OpenReader (archiveSpec tok).2 = .error err := by
  induction archives generalizing entries with
  | nil => simp [archiveLoop] at h
  | cons tok rest ih =>
    rw [archiveLoop, appendArchive_eq] at h
    cases hx : (appendArchive w [] (archiveSpec tok).1 (archiveSpec tok).2).2.2 with
    | some e =>
      rw [hx] at h
      simp only [Option.some.injEq] at h
      subst h
      exact ⟨[], tok, rest, rfl, by simp, appendArchive_err w _ _ e hx⟩
    | none =>
      rw [hx] at h
      simp only at h
      obtain ⟨pre, t, post, hl, hpre, hfail⟩ := ih _ h
      refine ⟨tok :: pre, t, post, by rw [hl]; rfl, ?_, hfail⟩
      intro u hu
      rcases List.mem_cons.1 hu with rfl | hu
      · exact hx
      · exact hpre u hu

theorem walkLoop_err_inv (name path : GoString) (nodes : List WalkNode)
    (entries es : List entry) (err : GoError)
    (h : walkLoop name path nodes entries = .ret (es, some err)) :
    ∃ good bad rest e, nodes = good ++ bad :: rest ∧ (∀ n ∈ good, nodeOk path n) ∧
      bad.err = some e ∧ err = GoError.traverse bad.filePath e := by
  induction nodes generalizing entries with
  | nil => simp [walkLoop] at h
  | cons n ns ih =>
    simp only [walkLoop, walkFn] at h
    cases hn : n.err with
    | some e =>
      rw [hn] at h
      simp only [Outcome.ret.injEq, Prod.mk.injEq, Option.some.injEq] at h
      exact ⟨[], n, ns, e, rfl, by simp, hn, h.2.symm⟩
    | none =>
      rw [hn] at h
      by_cases hd : n.isDir = true
      · simp only [hd, if_true] at h
        obtain ⟨good, bad, rest, e, hl, hgood, hbad, herr⟩ := ih _ h
        refine ⟨n :: good, bad, rest, e, by rw [hl]; rfl, ?_, hbad, herr⟩
        intro m hm
        rcases List.mem_cons.1 hm with rfl | hm
        · exact ⟨hn, fun hf => by simp [hd] at hf⟩
        · exact hgood m hm
      · simp only [hd, Bool.false_eq_true, if_false] at h
        by_cases hl : path.length ≤ n.filePath.length
        · simp only [hl, if_true] at h
          obtain ⟨good, bad, rest, e, hl1, hgood, hbad, herr⟩ := ih _ h
          refine ⟨n :: good, bad, rest, e, by rw [hl1]; rfl, ?_, hbad, herr⟩
          intro m hm
          rcases List.mem_cons.1 hm with rfl | hm
          · exact ⟨hn, fun _ => hl⟩
          · exact hgood m hm
        · simp [hl] at h

theorem fileLoop_err_inv (w : World) (files : List GoString) (entries es : List entry)
    (err : GoError) (h : (fileLoop w files entries).2 = .ret (es, some err)) :
    ∃ pre tok post es1, files = pre ++ tok :: post ∧ (∀ t ∈ pre, fileOk w t) ∧
      (appendFiles w [] (fileSpec tok).1 (fileSpec tok).2).2 = .ret (es1, some err) := by
  induction files generalizing entries with
  | nil => simp [fileLoop] at h
  | cons tok rest ih =>
    rw [fileLoop, appendFiles_eq] at h
    cases hx : (appendFiles w [] (fileSpec tok).1 (fileSpec tok).2).2 with
    | panic => rw [hx] at h; simp at h
    | ret a =>
      obtain ⟨es1, e⟩ := a
      cases e with
      | some e1 =>
        rw [hx] at h
        simp only [Outcome.ret.injEq, Prod.mk.injEq, Option.some.injEq] at h
        obtain ⟨-, rfl⟩ := h
        exact ⟨[], tok, rest, es1, rfl, by simp, hx⟩
      | none =>
        rw [hx] at h
        simp only at h
        obtain ⟨pre, t, post, es2, hl, hpre, hfail⟩ := ih _ h
        refine ⟨tok :: pre, t, post, es2, by rw [hl]; rfl, ?_, hfail⟩
        intro u hu
        rcases List.mem_cons.1 hu with rfl | hu
        · exact ⟨es1, hx⟩
        · exact hpre u hu

theorem accumulate_err_inv (w : World) (archives files : List GoString) (es : List entry)
    (err : GoError) (h : (accumulate w archives files).2 = .ret (es, some err)) :
    (archiveLoop w archives []).2.2 = some err ∨
      ((∀ t ∈ archives, archiveOk w t) ∧
        ∃ entries, (fileLoop w files entries).2 = .ret (es, some err)) := by
  unfold accumulate at h
  cases hx : (archiveLoop w archives []).2.2 with
  | some e =>
    have : archiveLoop w archives [] =
        ((archiveLoop w archives []).1, ((archiveLoop w archives []).2.1, some e)) := by
      rw [← hx]
    rw [this] at h
    simp only [Outcome.ret.injEq, Prod.mk.injEq, Option.some.injEq] at h
    exact Or.inl (by rw [h.2])
  | none =>
    have : archiveLoop w archives [] =
        ((archiveLoop w archives []).1, ((archiveLoop w archives []).2.1, none)) := by
      rw [← hx]
    rw [this] at h
    simp only at h
    exact Or.inr ⟨archiveLoop_ok_inv w archives [] hx, _, h⟩

theorem createEntries_err_inv (w : World) (archives files : List GoString) (es : List entry)
    (err : GoError) (h : (createEntries w archives files).2 = .ret (es, some err)) :
    (accumulate w archives files).2 = .ret (es, some err) := by
  unfold createEntries at h
  split at h
  · rename_i heq
    rw [heq]; exact h
  · simp at h
  · simp at h

theorem run_of_createEntries_error (w : World) (archives files : List GoString)
    (output : GoString) (compress : Bool) (ev : List Event) (err : GoError)
    (h : ∃ entries, accumulate w archives files = (ev, .ret (entries, some err))) :
    run w archives files output compress = (ev, .ret (some err)) := by
  obtain ⟨entries, h⟩ := h
  simp [run, createEntries, h]

/-- A resolution failure that is reached aborts the run before the output is
touched. If an archive token cannot be opened (the archive tokens before it resolving), or
the walk of a file token reports an error (the archive tokens and the file
tokens before it resolving, the callback accepting the nodes visited before the
failing one), then `run` returns the error of that resolution, and the external
calls of the whole run are exactly the resolver calls for the tokens up to and
including the failing one: no later token is resolved, `os.Create` is not
called, nothing is opened for writing, and no header or byte reaches a
writer. These two cases are all the ways in which the resolution of
`createEntries` returns an error. -/
theorem run_aborts_on_resolution_failure (w : World) (archives files : List GoString)
    (output : GoString) (compress : Bool) :
    (∀ pre tok post err, archives = pre ++ tok :: post → (∀ t ∈ pre, archiveOk w t) →
      w.OpenReader (archiveSpec tok).2 = .error err →
      run w archives files output compress =
        (resolutionTrace (pre ++ [tok]) [], .ret (some err))) ∧
    (∀ pre tok post good bad rest e, files = pre ++ tok :: post →
      (∀ t ∈ archives, archiveOk w t) → (∀ t ∈ pre, fileOk w t) →
      w.Walk (fileSpec tok).2 = good ++ bad :: rest →
      (∀ n ∈ good, nodeOk (fileSpec tok).2 n) → bad.err = some e →
      run w archives files output compress =
        (resolutionTrace archives (pre ++ [tok]),
          .ret (some (GoError.traverse bad.filePath e)))) ∧
    (∀ (a f : List GoString) (ev : Event), ev ∈ resolutionTrace a f →
      (∃ t ∈ a, ev = Event.openReader (archiveSpec t).2) ∨
      (∃ t ∈ f, ev = Event.walk (fileSpec t).2)) ∧
    (∀ entries err, (createEntries w archives files).2 = .ret (entries, some err) →
      (∃ pre tok post, archives = pre ++ tok :: post ∧ (∀ t ∈ pre, archiveOk w t) ∧
        w.OpenReader (archiveSpec tok).2 = .error err) ∨
      (∃ pre tok post good bad rest e, files = pre ++ tok :: post ∧
        (∀ t ∈ archives, archiveOk w t) ∧ (∀ t ∈ pre, fileOk w t) ∧
        w.Walk (fileSpec tok).2 = good ++ bad :: rest ∧
        (∀ n ∈ good, nodeOk (fileSpec tok).2 n) ∧ bad.err = some e ∧
        err = GoError.traverse bad.filePath e)) := by
  refine ⟨?_, ?_, ?_, ?_⟩
  · intro pre tok post err harch hpre hfail
    subst harch
    refine run_of_createEntries_error w _ files output compress _ err
      ⟨[] ++ pre.flatMap (archiveYield w), ?_⟩
    simp only [accumulate, archiveLoop_fail w pre tok post [] err hpre hfail, resolutionTrace,
      List.map_nil, List.append_nil]
  · intro pre tok post good bad rest e hfiles harch hpre hwalk hgood hbad
    subst hfiles
    have hf : (appendFiles w [] (fileSpec tok).1 (fileSpec tok).2).2 =
        .ret ([] ++ (good.filter (fun n => !n.isDir)).map
          (nodeEntry (fileSpec tok).1 (fileSpec tok).2),
          some (GoError.traverse bad.filePath e)) := by
      simp only [appendFiles, hwalk]
      exact walkLoop_fail _ _ good bad rest [] e hgood hbad
    refine run_of_createEntries_error w archives _ output compress _ _
      ⟨[] ++ archives.flatMap (archiveYield w) ++ pre.flatMap (fileYield w) ++
        ([] ++ (good.filter (fun n => !n.isDir)).map
          (nodeEntry (fileSpec tok).1 (fileSpec tok).2)), ?_⟩
    simp only [accumulate, archiveLoop_ok w archives [] harch,
      fileLoop_fail w pre tok post _ _ _ hpre hf, resolutionTrace]
  · intro a f ev hev
    simp only [resolutionTrace, List.mem_append, List.mem_map] at hev
    rcases hev with ⟨t, ht, rfl⟩ | ⟨t, ht, rfl⟩
    · exact Or.inl ⟨t, ht, rfl⟩
    · exact Or.inr ⟨t, ht, rfl⟩
  · intro entries err h
    rcases accumulate_err_inv w archives files entries err
      (createEntries_err_inv w archives files entries err h) with ha | ⟨hok, es0, hf⟩
    · exact Or.inl (archiveLoop_err_inv w archives [] err ha)
    · obtain ⟨pre, tok, post, es1, hl, hpre, hfail⟩ := fileLoop_err_inv w files es0 entries err hf
      obtain ⟨good, bad, rest, e, hw, hgood, hbad, herr⟩ :=
        walkLoop_err_inv _ _ _ [] es1 err hfail
      exact Or.inr ⟨pre, tok, post, good, bad, rest, e, hl, hok, hpre, hw, hgood, hbad, herr⟩

/-- The abort on the demo world: the archive token `nope.zip` between `A.zip`
and `B.zip`, and the file token `missing.txt` between `f1.txt` and `f2.txt`. -/
theorem run_aborts_on_resolution_failure_witness :
    run demoWorld [str "A.zip", str "nope.zip", str "B.zip"] [str "f1.txt"] (str "out.zip") true =
        ([Event.openReader (str "A.zip"), Event.openReader (str "nope.zip")],
          .ret (some (GoError.ext 1))) ∧
      run demoWorld [str "A.zip"] [str "f1.txt", str "missing.txt", str "f2.txt"]
          (str "out.zip") false =
        ([Event.openReader (str "A.zip"), Event.walk (str "f1.txt"),
            Event.walk (str "missing.txt")],
          .ret (some (GoError.traverse (str "missing.txt") (GoError.ext 2)))) :=
  ⟨(run_aborts_on_resolution_failure demoWorld [str "A.zip", str "nope.zip", str "B.zip"]
      [str "f1.txt"] (str "out.zip") true).1 [str "A.zip"] (str "nope.zip") [str "B.zip"]
      (GoError.ext 1) (by rfl)
      (by intro t ht; simp only [List.mem_singleton] at ht; subst ht; rfl) (by rfl),
    (run_aborts_on_resolution_failure demoWorld [str "A.zip"]
      [str "f1.txt", str "missing.txt", str "f2.txt"] (str "out.zip") false).2.1
      [str "f1.txt"] (str "missing.txt") [str "f2.txt"] []
      ⟨str "missing.txt", false, some (GoError.ext 2)⟩ [] (GoError.ext 2) (by rfl)
      (by intro t ht; simp only [List.mem_singleton] at ht; subst ht; rfl)
      (by intro t ht; simp only [List.mem_singleton] at ht; subst ht; exact ⟨_, rfl⟩)
      (by rfl) (by intro n hn; cases hn) (by rfl)⟩

/-- C10 (the code departs from it). With the file tokens `././d` and
`missing.txt`, the resolution of `missing.txt` fails (on its own, `appendFiles`
returns the traverse error), yet `run` does not return that error: the callback
of `appendFiles` panics on the slice `filePath[len(path):]` (line 202) at the
file `d/a` of the first token, after the one call of `filepath.Walk`. The
output is not touched. With `missing.txt` alone, or after a token whose walk
stays in bounds, `run` returns the error. -/
theorem run_panics_before_resolution_failure :
    run sliceWorld [] [str "././d", str "missing.txt"] (str "out.zip") false =
        ([Event.walk (str "././d")], .panic) ∧
      appendFiles sliceWorld [] (fileSpec (str "missing.txt")).1
          (fileSpec (str "missing.txt")).2 =
        ([Event.walk (str "missing.txt")],
          .ret ([], some (GoError.traverse (str "missing.txt") (GoError.ext 2)))) ∧
      walkFn (str "././d") (str "././d") [] ⟨str "d/a", false, none⟩ = .panic ∧
      run sliceWorld [] [str "missing.txt"] (str "out.zip") false =
        ([Event.walk (str "missing.txt")],
          .ret (some (GoError.traverse (str "missing.txt") (GoError.ext 2)))) ∧
      run sliceWorld [] [str "f1.txt", str "missing.txt"] (str "out.zip") false =
        ([Event.walk (str "f1.txt"), Event.walk (str "missing.txt")],
          .ret (some (GoError.traverse (str "missing.txt") (GoError.ext 2)))) :=
  ⟨by rfl, by rfl, by rfl, by rfl, by rfl⟩

end Zip
